import Mathlib

/-!
Verification development for the llaminal repository.

This file contains a shallow embedding, in Lean 4, of the parts of the
llaminal source that the specification claims talk about:

* `src/llaminal/agent.py` — the streaming tool-calling agent loop
  (`run_agent_loop`, `_pop_last_user_message`);
* `src/llaminal/shell.py` — the 3-state escape-gesture detector
  (`ShellWrapper._process_stdin_bytes`);
* `src/llaminal/pty_executor.py` — the marker-protocol command executor
  (`PtyExecutor.execute`, `_extract_output_raw`, `_format_result`);
* `src/llaminal/scrollback.py` — the scrollback compression pipeline
  (`_is_progress_line`, `_compress`, `ScrollbackCapture.get_context`);
* `src/llaminal/tools/registry.py` — tool dispatch (`ToolRegistry.execute`).

Python strings are modelled as Lean `String` (a wrapper around `List Char`,
matching Python's sequence-of-code-points view); Python `bytes` are modelled
as `List Nat`; Python dicts with fixed key sets are modelled as structures
with `Option` fields for optional keys; the OpenAI-format message dicts are
modelled by the inductive `Msg` whose constructors carry exactly the fields
the source writes for each role.  Effects on the PTY (writes, callback
registration, output suppression) are modelled as explicit action traces,
and awaited results (the marker future, stream chunks) as explicit inputs.
-/

namespace Llaminal

/-! ### Python string helpers

Executable counterparts of the Python `str` operations the sources use.
Lean's built-in `String.trim`/`String.toLower` do not reduce by `decide`,
so these are defined directly on the underlying character list. -/

/-- The ASCII apostrophe, as a one-character string. -/
def apos : String := String.mk [Char.ofNat 39]

/-- Python `str.isspace`-style whitespace characters recognised by `str.strip()`. -/
def isPyWhitespace (c : Char) : Bool :=
  c = ' ' || c = '\t' || c = '\n' || c = '\r' || c = Char.ofNat 11 || c = Char.ofNat 12

/-- Python `s.strip()`: remove leading and trailing whitespace. -/
def pyStrip (s : String) : String :=
  String.mk (((s.data.dropWhile isPyWhitespace).reverse.dropWhile isPyWhitespace).reverse)

/-- Python `s.lower()` (ASCII case folding, which covers the `y`/`n` answers used). -/
def pyLower (s : String) : String :=
  String.mk (s.data.map Char.toLower)

/-! ### `agent.py` — streamed deltas and tool-call accumulation

Embedding of `run_agent_loop` (src/llaminal/agent.py lines 19–142).
A chat-completions stream chunk is a `Delta`; its `tool_calls` entries are
`ToolCallDelta`s (dicts `{index, id?, function: {name?, arguments?}}`,
flattened here).  The per-index accumulator `tool_calls_by_index` is a
`Nat`-keyed association list, since Python dict insertion order never
matters to the code (extraction sorts the keys). -/

/-- One entry of a streamed `delta.tool_calls` list: the dict
`{"index": ..., "id"?: ..., "function": {"name"?: ..., "arguments"?: ...}}`,
with the nested `function` dict flattened into the two optional fields. -/
structure ToolCallDelta where
  index : Nat
  id : Option String := none
  name : Option String := none
  arguments : Option String := none
deriving DecidableEq, Repr

/-- A fully accumulated tool call `{"id": ..., "type": "function",
"function": {"name": ..., "arguments": ...}}` (the constant `type` field
is omitted). -/
structure ToolCall where
  id : String
  name : String
  arguments : String
deriving DecidableEq, Repr

/-- One streamed chunk, as produced by `LlaminalClient.stream_chat`. -/
structure Delta where
  content : Option String := none
  tool_calls : List ToolCallDelta := []
deriving DecidableEq, Repr

/-- `agent.py` lines 38–43: the accumulator entry created on first sight of
an index: id defaults to `f"call_{idx}"`, name and arguments start empty. -/
def initToolCall (d : ToolCallDelta) : ToolCall :=
  { id := d.id.getD ("call_" ++ toString d.index), name := "", arguments := "" }

/-- `agent.py` lines 44–49: merge one fragment into an accumulator entry by
string concatenation of the `name` and `arguments` fields (a missing field
contributes nothing). -/
def applyToolCallDelta (tc : ToolCall) (d : ToolCallDelta) : ToolCall :=
  { tc with
    name := tc.name ++ d.name.getD ""
    arguments := tc.arguments ++ d.arguments.getD "" }

/-- Association-list lookup for the accumulator (Python `idx in dict` /
`dict[idx]`). -/
def lookupTC : List (Nat × ToolCall) → Nat → Option ToolCall
  | [], _ => none
  | p :: rest, i => if p.1 = i then some p.2 else lookupTC rest i

/-- `agent.py` lines 36–49: process one `tc_delta`: create the entry if the
index is new, then concatenate the fragment into that entry. -/
def tcStep (acc : List (Nat × ToolCall)) (d : ToolCallDelta) : List (Nat × ToolCall) :=
  let acc2 :=
    match lookupTC acc d.index with
    | none => acc ++ [(d.index, initToolCall d)]
    | some _ => acc
  acc2.map (fun p => if p.1 = d.index then (p.1, applyToolCallDelta p.2 d) else p)

/-- Fold a whole stream's tool-call fragments (in arrival order) into the
accumulator, starting from the empty dict. -/
def accumToolCallDeltas (ds : List ToolCallDelta) : List (Nat × ToolCall) :=
  ds.foldl tcStep []

/-- `agent.py` lines 29–30, 53, 114: `full_content = "".join(content_parts)`
where `content_parts` collects the truthy `delta.content` fragments in
arrival order (joining an empty fragment is a no-op, so `filterMap` on the
optional field gives the same string). -/
def streamContent (deltas : List Delta) : String :=
  String.join (deltas.filterMap (·.content))

/-- The indices of the accumulated tool calls, sorted ascending
(`sorted(tool_calls_by_index)` in `agent.py` line 115). -/
def streamToolCallIndices (deltas : List Delta) : List Nat :=
  List.insertionSort (· ≤ ·)
    ((accumToolCallDeltas (deltas.flatMap (·.tool_calls))).map (·.1))

/-- `agent.py` line 115: the finalized tool calls, ordered by index. -/
def streamToolCalls (deltas : List Delta) : List ToolCall :=
  (streamToolCallIndices deltas).filterMap
    (lookupTC (accumToolCallDeltas (deltas.flatMap (·.tool_calls))))

/-! ### `agent.py` / `session.py` — conversation history -/

/-- An OpenAI-format conversation message, one constructor per dict shape
the source appends (`session.py` lines 19–52).  `assistantToolCalls`
carries `content := none` when `add_assistant_tool_calls` is called with
`full_content or None` evaluating to `None`. -/
inductive Msg where
  | system (content : String)
  | user (content : String)
  | assistant (content : String)
  | assistantToolCalls (content : Option String) (tool_calls : List ToolCall)
  | tool (tool_call_id : String) (content : String)
deriving DecidableEq, Repr

/-- Role test used by `_pop_last_user_message` (`messages[-1]["role"] == "user"`). -/
def isUserMsg : Msg → Bool
  | .user _ => true
  | _ => false

/-- `agent.py` lines 145–148, `_pop_last_user_message`: remove the last
message only when it exists and has role `user`. -/
def popLastUserMessage (h : List Msg) : List Msg :=
  match h.getLast? with
  | some m => if isUserMsg m then h.dropLast else h
  | none => h

/-- The outcome of one round's streaming request, as seen by the
`try/except` in `run_agent_loop`: a completed stream of deltas, a
`KeyboardInterrupt` after some deltas, or one of the caught exception
classes (`httpx.ConnectError`, `httpx.TimeoutException`,
`httpx.RemoteProtocolError`/`httpx.ReadError`, `httpx.HTTPStatusError`,
anything else). -/
inductive RoundOutcome where
  | ok (deltas : List Delta)
  | interrupted (deltas : List Delta)
  | connectError
  | timeoutError
  | readError
  | statusError (code : Nat)
  | otherError
deriving DecidableEq, Repr

/-- `agent.py` lines 19–142, `run_agent_loop`, with the sequence of stream
outcomes for successive rounds given as a list and the tool dispatch
(`registry.execute` composed with the argument parsing, whose details the
history shape does not depend on) as a function from the tool call to the
result string.  Returns `some finalHistory` when the loop ends within the
given rounds and `none` when it runs out of provided rounds while still
looping.  Terminal-rendering calls are not modelled. -/
def runAgentLoop (execTool : ToolCall → String) :
    List RoundOutcome → List Msg → Option (List Msg)
  | [], _ => none
  | r :: rest, h =>
    match r with
    | .interrupted deltas =>
      -- lines 51–57: commit partial content, then the exception propagates
      let c := streamContent deltas
      some (h ++ if c = "" then [] else [Msg.assistant c])
    | .connectError => some (popLastUserMessage h)
    | .timeoutError => some (popLastUserMessage h)
    | .readError => some (popLastUserMessage h)
    | .statusError _ => some h
    | .otherError => some h
    | .ok deltas =>
      let c := streamContent deltas
      let tcs := streamToolCalls deltas
      if tcs.isEmpty then
        -- lines 121–125: plain text response, turn complete
        some (h ++ if c = "" then [] else [Msg.assistant c])
      else
        -- lines 127–142: record assistant tool calls, execute each in order
        -- appending its tool-result message, then loop back
        runAgentLoop execTool rest
          (h ++ [Msg.assistantToolCalls (if c = "" then none else some c) tcs]
             ++ tcs.map (fun tc => Msg.tool tc.id (execTool tc)))

/-- The intermediate histories produced inside one tool-executing round:
after each `session.add_tool_result` append (`agent.py` line 140), i.e.
`h1 ++ toolMsgs.take 1`, `h1 ++ toolMsgs.take 2`, .... -/
def roundAppendStates (h1 : List Msg) (toolMsgs : List Msg) : List (List Msg) :=
  (List.range toolMsgs.length).map (fun k => h1 ++ toolMsgs.take (k + 1))

/-- Every history value reached after an append to `session.messages`
during `run_agent_loop` (the error paths append nothing; the pop of
`_pop_last_user_message` is a removal, not an append). -/
def turnTrace (execTool : ToolCall → String) :
    List RoundOutcome → List Msg → List (List Msg)
  | [], _ => []
  | r :: rest, h =>
    match r with
    | .interrupted deltas =>
      let c := streamContent deltas
      if c = "" then [] else [h ++ [Msg.assistant c]]
    | .connectError => []
    | .timeoutError => []
    | .readError => []
    | .statusError _ => []
    | .otherError => []
    | .ok deltas =>
      let c := streamContent deltas
      let tcs := streamToolCalls deltas
      if tcs.isEmpty then
        if c = "" then [] else [h ++ [Msg.assistant c]]
      else
        let h1 := h ++ [Msg.assistantToolCalls (if c = "" then none else some c) tcs]
        let toolMsgs := tcs.map (fun tc => Msg.tool tc.id (execTool tc))
        h1 :: (roundAppendStates h1 toolMsgs ++ turnTrace execTool rest (h1 ++ toolMsgs))

/-- The tool-call ids introduced by a message (empty unless it is an
assistant message carrying `tool_calls`). -/
def msgToolCallIds : Msg → List String
  | .assistantToolCalls _ tcs => tcs.map (·.id)
  | _ => []

/-- Left-to-right scan deciding the spec's history invariant: `cur` holds
the tool-call ids of the nearest preceding assistant message; every
`tool`-role message's `tool_call_id` must be in `cur`.  Any assistant
message (with or without tool calls) resets `cur`. -/
def invFrom (cur : List String) : List Msg → Bool
  | [] => true
  | m :: rest =>
    match m with
    | .tool tid _ => cur.contains tid && invFrom cur rest
    | .assistantToolCalls _ tcs => invFrom (tcs.map (·.id)) rest
    | .assistant _ => invFrom [] rest
    | _ => invFrom cur rest

/-- The history invariant of the spec's data model: every `tool` message
references a tool call of the most recent preceding assistant message. -/
def toolLinkInvariant (h : List Msg) : Bool := invFrom [] h

/-- The `cur` id-set after scanning `msgs` starting from `cur`. -/
def curAfter (cur : List String) : List Msg → List String
  | [] => cur
  | m :: rest =>
    match m with
    | .assistantToolCalls _ tcs => curAfter (tcs.map (·.id)) rest
    | .assistant _ => curAfter [] rest
    | _ => curAfter cur rest

/-! ### Lemmas about the tool-call accumulator (for C2) -/

/-- The accumulated `name` at index `i` (empty if the index is absent). -/
def accNameAt (acc : List (Nat × ToolCall)) (i : Nat) : String :=
  ((lookupTC acc i).map (·.name)).getD ""

/-- The accumulated `arguments` at index `i` (empty if the index is absent). -/
def accArgsAt (acc : List (Nat × ToolCall)) (i : Nat) : String :=
  ((lookupTC acc i).map (·.arguments)).getD ""

/-- Concatenation, in arrival order, of the `name` fragments carried by
the deltas whose index is `i` (the value the accumulator should rebuild). -/
def catNameFrags (i : Nat) : List ToolCallDelta → String
  | [] => ""
  | d :: ds => (if d.index = i then d.name.getD "" else "") ++ catNameFrags i ds

/-- Concatenation, in arrival order, of the `arguments` fragments carried
by the deltas whose index is `i`. -/
def catArgFrags (i : Nat) : List ToolCallDelta → String
  | [] => ""
  | d :: ds => (if d.index = i then d.arguments.getD "" else "") ++ catArgFrags i ds

theorem lookupTC_map_update (acc : List (Nat × ToolCall)) (d : ToolCallDelta) (i : Nat) :
    lookupTC (acc.map (fun p => if p.1 = d.index then (p.1, applyToolCallDelta p.2 d) else p)) i =
      if i = d.index then (lookupTC acc i).map (fun tc => applyToolCallDelta tc d)
      else lookupTC acc i := by
  induction acc with
  | nil => simp [lookupTC]
  | cons p rest ih =>
    simp only [List.map_cons]
    by_cases hj : p.1 = d.index
    · by_cases hi : p.1 = i
      · have hij : i = d.index := by rw [← hi, ← hj]
        simp [lookupTC, hj, hi, hij]
      · have hji : ¬ d.index = i := fun hh => hi (hj.trans hh)
        have hij : ¬ i = d.index := fun hh => hji hh.symm
        simp [lookupTC, hj, hi, ih, hji, hij]
    · by_cases hi : p.1 = i
      · have hij : ¬ i = d.index := fun hh => hj (hi.trans hh)
        simp [lookupTC, hj, hi, hij]
      · simp [lookupTC, hj, hi, ih]

theorem lookupTC_append_single (acc : List (Nat × ToolCall)) (j : Nat)
    (v : ToolCall) (i : Nat) (hnone : lookupTC acc i = none) :
    lookupTC (acc ++ [(j, v)]) i = if j = i then some v else none := by
  induction acc with
  | nil => simp [lookupTC]
  | cons p rest ih =>
    by_cases hi : p.1 = i
    · simp [lookupTC, hi] at hnone
    · simp [lookupTC, hi] at hnone ⊢
      exact ih hnone

theorem lookupTC_append_single_of_some (acc : List (Nat × ToolCall)) (j : Nat)
    (v tc : ToolCall) (i : Nat) (hsome : lookupTC acc i = some tc) :
    lookupTC (acc ++ [(j, v)]) i = some tc := by
  induction acc with
  | nil => simp [lookupTC] at hsome
  | cons p rest ih =>
    by_cases hi : p.1 = i
    · simp [lookupTC, hi] at hsome ⊢; exact hsome
    · simp [lookupTC, hi] at hsome ⊢
      exact ih hsome

theorem lookupTC_append_single_ne (acc : List (Nat × ToolCall)) (j : Nat)
    (v : ToolCall) (i : Nat) (hne : ¬ j = i) :
    lookupTC (acc ++ [(j, v)]) i = lookupTC acc i := by
  induction acc with
  | nil => simp [lookupTC, hne]
  | cons p rest ih =>
    by_cases hi : p.1 = i <;> simp [lookupTC, hi, ih]

theorem lookupTC_tcStep (acc : List (Nat × ToolCall)) (d : ToolCallDelta) (i : Nat) :
    lookupTC (tcStep acc d) i =
      if i = d.index then
        some (applyToolCallDelta ((lookupTC acc i).getD (initToolCall d)) d)
      else lookupTC acc i := by
  unfold tcStep
  cases h : lookupTC acc d.index with
  | none =>
    simp only [h]
    rw [lookupTC_map_update]
    by_cases hi : i = d.index
    · subst hi
      rw [lookupTC_append_single acc d.index (initToolCall d) d.index h]
      simp [h]
    · simp only [hi, if_false]
      exact lookupTC_append_single_ne acc d.index (initToolCall d) i
        (fun hh => hi hh.symm)
  | some tc0 =>
    simp only [h]
    rw [lookupTC_map_update]
    by_cases hi : i = d.index
    · subst hi
      simp [h]
    · simp [hi]

theorem accNameAt_tcStep (acc : List (Nat × ToolCall)) (d : ToolCallDelta) (i : Nat) :
    accNameAt (tcStep acc d) i =
      accNameAt acc i ++ (if d.index = i then d.name.getD "" else "") := by
  unfold accNameAt
  rw [lookupTC_tcStep]
  by_cases hi : i = d.index
  · rw [hi]
    cases h : lookupTC acc d.index with
    | none => simp [h, applyToolCallDelta, initToolCall]
    | some tc0 => simp [h, applyToolCallDelta]
  · have hdi : ¬ d.index = i := fun hh => hi hh.symm
    simp [hi, hdi]

theorem accArgsAt_tcStep (acc : List (Nat × ToolCall)) (d : ToolCallDelta) (i : Nat) :
    accArgsAt (tcStep acc d) i =
      accArgsAt acc i ++ (if d.index = i then d.arguments.getD "" else "") := by
  unfold accArgsAt
  rw [lookupTC_tcStep]
  by_cases hi : i = d.index
  · rw [hi]
    cases h : lookupTC acc d.index with
    | none => simp [h, applyToolCallDelta, initToolCall]
    | some tc0 => simp [h, applyToolCallDelta]
  · have hdi : ¬ d.index = i := fun hh => hi hh.symm
    simp [hi, hdi]

theorem accNameAt_foldl (ds : List ToolCallDelta) (acc : List (Nat × ToolCall)) (i : Nat) :
    accNameAt (ds.foldl tcStep acc) i = accNameAt acc i ++ catNameFrags i ds := by
  induction ds generalizing acc with
  | nil => simp [catNameFrags]
  | cons d ds ih =>
    simp only [List.foldl_cons, catNameFrags]
    rw [ih, accNameAt_tcStep, String.append_assoc]

theorem accArgsAt_foldl (ds : List ToolCallDelta) (acc : List (Nat × ToolCall)) (i : Nat) :
    accArgsAt (ds.foldl tcStep acc) i = accArgsAt acc i ++ catArgFrags i ds := by
  induction ds generalizing acc with
  | nil => simp [catArgFrags]
  | cons d ds ih =>
    simp only [List.foldl_cons, catArgFrags]
    rw [ih, accArgsAt_tcStep, String.append_assoc]

/-- C2: for every tool-call name or arguments string and every partition of
it into fragments delivered as successive stream deltas carrying the same
index, arbitrarily interleaved with fragments for other indices, the
per-index accumulator of `run_agent_loop` reconstructs exactly the
concatenation, in arrival order, of the fragments carried for that index —
it never overwrites earlier fragments.  In particular accumulating
`["get_", "weather"]` into index 0's name field yields `"get_weather"`. -/
theorem toolCall_fragment_reassembly (ds : List ToolCallDelta) (i : Nat) :
    accNameAt (accumToolCallDeltas ds) i = catNameFrags i ds ∧
    accArgsAt (accumToolCallDeltas ds) i = catArgFrags i ds ∧
    accNameAt (accumToolCallDeltas
      [{ index := 0, name := some "get_" }, { index := 0, name := some "weather" }]) 0
      = "get_weather" := by
  refine ⟨?_, ?_, by decide⟩
  · have h := accNameAt_foldl ds [] i
    simpa [accumToolCallDeltas, accNameAt, lookupTC] using h
  · have h := accArgsAt_foldl ds [] i
    simpa [accumToolCallDeltas, accArgsAt, lookupTC] using h

/-! ### Lemmas about the history invariant (for C8) -/

theorem invFrom_append (cur : List String) (xs ys : List Msg) :
    invFrom cur (xs ++ ys) = (invFrom cur xs && invFrom (curAfter cur xs) ys) := by
  induction xs generalizing cur with
  | nil => simp [invFrom, curAfter]
  | cons m xs ih =>
    cases m <;> simp [invFrom, curAfter, ih, Bool.and_assoc]

theorem curAfter_append (cur : List String) (xs ys : List Msg) :
    curAfter cur (xs ++ ys) = curAfter (curAfter cur xs) ys := by
  induction xs generalizing cur with
  | nil => simp [curAfter]
  | cons m xs ih =>
    cases m <;> simp [curAfter, ih]

theorem invFrom_toolMsgs (ids : List String) (tcs : List ToolCall)
    (execTool : ToolCall → String)
    (hsub : ∀ tc ∈ tcs, ids.contains tc.id = true) :
    invFrom ids (tcs.map (fun tc => Msg.tool tc.id (execTool tc))) = true := by
  induction tcs with
  | nil => rfl
  | cons tc tcs ih =>
    simp only [List.map_cons, invFrom, Bool.and_eq_true]
    exact ⟨hsub tc (List.mem_cons_self tc tcs),
           ih fun tc2 h2 => hsub tc2 (List.mem_cons_of_mem tc h2)⟩

theorem inv_round_partial (h : List Msg) (c : Option String) (tcs : List ToolCall)
    (execTool : ToolCall → String) (hInv : toolLinkInvariant h = true) (k : Nat) :
    toolLinkInvariant ((h ++ [Msg.assistantToolCalls c tcs]) ++
      ((tcs.map (fun tc => Msg.tool tc.id (execTool tc))).take k)) = true := by
  unfold toolLinkInvariant at hInv ⊢
  rw [invFrom_append, Bool.and_eq_true]
  constructor
  · rw [invFrom_append, Bool.and_eq_true]
    exact ⟨hInv, rfl⟩
  · have hcur : curAfter [] (h ++ [Msg.assistantToolCalls c tcs]) = tcs.map (·.id) := by
      rw [curAfter_append]; rfl
    rw [hcur, ← List.map_take]
    refine invFrom_toolMsgs _ _ _ (fun tc htc => ?_)
    have : tc.id ∈ tcs.map (·.id) :=
      List.mem_map_of_mem _ (List.take_subset k tcs htc)
    exact List.elem_eq_true_of_mem this

theorem toolLinkInvariant_popLastUser (h : List Msg)
    (hInv : toolLinkInvariant h = true) :
    toolLinkInvariant (popLastUserMessage h) = true := by
  induction h using List.reverseRecOn with
  | nil => exact hInv
  | append_singleton xs x _ih =>
    unfold popLastUserMessage
    rw [List.getLast?_concat]
    by_cases hx : isUserMsg x
    · simp only [hx, if_true, List.dropLast_concat]
      unfold toolLinkInvariant at hInv ⊢
      rw [invFrom_append, Bool.and_eq_true] at hInv
      exact hInv.1
    · simp only [hx, if_false]
      exact hInv

theorem toolLinkInvariant_append_assistant (h : List Msg) (c : String)
    (hInv : toolLinkInvariant h = true) :
    toolLinkInvariant (h ++ [Msg.assistant c]) = true := by
  unfold toolLinkInvariant at hInv ⊢
  rw [invFrom_append, Bool.and_eq_true]
  exact ⟨hInv, rfl⟩

/-- Whether the last history entry has role `user` (the guard of
`_pop_last_user_message`). -/
def lastRoleIsUser (h : List Msg) : Bool :=
  (h.getLast?.map isUserMsg).getD false

theorem popLastUserMessage_append_user (h : List Msg) (u : String) :
    popLastUserMessage (h ++ [Msg.user u]) = h := by
  unfold popLastUserMessage
  rw [List.getLast?_concat]
  simp [isUserMsg, List.dropLast_concat]

theorem popLastUserMessage_of_not_user (h : List Msg)
    (hlast : lastRoleIsUser h = false) :
    popLastUserMessage h = h := by
  unfold popLastUserMessage
  unfold lastRoleIsUser at hlast
  cases hl : h.getLast? with
  | none => rfl
  | some m =>
    rw [hl] at hlast
    simp at hlast
    simp [hlast]

/-! ### Claim C1 -/

/-- C1 counterexample: a round whose stream ends with no accumulated tool
calls and no content terminates the turn with NO assistant message
appended (the code guards the append with `if full_content:`), whereas the
claim says the buffered streamed text is appended to history as the final
assistant message. -/
theorem agent_loop_empty_round_cex :
    runAgentLoop (fun _ => "") [RoundOutcome.ok []] [Msg.system "sys"]
      = some [Msg.system "sys"] ∧
    some [Msg.system "sys"] ≠ some [Msg.system "sys", Msg.assistant ""] := by
  exact ⟨rfl, by decide⟩

/-- C1 (amended): the agent loop terminates a turn exactly when a round's
stream ends with no accumulated tool calls: in that case the buffered
streamed text is appended to history as the final assistant message
whenever it is non-empty (nothing is appended when it is empty) and the
loop returns; in every round that does accumulate tool calls the loop
instead appends an assistant history entry carrying the buffered text
(omitted when empty) plus the tool calls ordered by index, executes each
tool call in that order appending a tool-result entry tagged with the
call's id, and then re-issues the request with the updated history. -/
theorem agent_loop_round_structure (execTool : ToolCall → String)
    (rest : List RoundOutcome) (h : List Msg) (deltas : List Delta) :
    (streamToolCalls deltas = [] →
      runAgentLoop execTool (RoundOutcome.ok deltas :: rest) h =
        some (h ++ if streamContent deltas = "" then []
                   else [Msg.assistant (streamContent deltas)])) ∧
    (streamToolCalls deltas ≠ [] →
      runAgentLoop execTool (RoundOutcome.ok deltas :: rest) h =
        runAgentLoop execTool rest
          (h ++ [Msg.assistantToolCalls
                  (if streamContent deltas = "" then none else some (streamContent deltas))
                  (streamToolCalls deltas)]
             ++ (streamToolCalls deltas).map (fun tc => Msg.tool tc.id (execTool tc)))) ∧
    List.Sorted (· ≤ ·) (streamToolCallIndices deltas) := by
  refine ⟨?_, ?_, List.sorted_insertionSort _ _⟩
  · intro hempty
    simp [runAgentLoop, hempty]
  · intro hne
    have hfalse : (streamToolCalls deltas).isEmpty = false := by
      cases hts : streamToolCalls deltas with
      | nil => exact absurd hts hne
      | cons a l => rfl
    simp [runAgentLoop, hfalse]

/-- Witness for the amended C1: a one-round stream with content and no
tool calls appends exactly one assistant message and stops. -/
theorem agent_loop_round_structure_witness :
    runAgentLoop (fun _ => "") [RoundOutcome.ok [{ content := some "hi" }]] [Msg.system "sys"]
      = some [Msg.system "sys", Msg.assistant "hi"] := by
  have hmain := (agent_loop_round_structure (fun _ => "") []
    [Msg.system "sys"] [{ content := some "hi" }]).1 (by decide)
  rw [hmain]
  decide

/-! ### Claim C7 -/

/-- A first-round stream delta announcing one tool call, for the C7
counterexample. -/
def c7Delta : Delta :=
  { tool_calls := [{ index := 0, id := some "call_a", name := some "run", arguments := some "" }] }

/-- The history the code actually leaves behind in the C7 counterexample
run: the pending user message is still present. -/
def c7FinalHistory : List Msg :=
  [Msg.system "sys", Msg.user "please",
   Msg.assistantToolCalls none [{ id := "call_a", name := "run", arguments := "" }],
   Msg.tool "call_a" "ok"]

/-- C7 counterexample: a transport error (`httpx.ConnectError`) in the
second round of a turn — after a first round already appended assistant
tool calls and a tool result — does not remove the pending user message:
the final history still contains it, and is not the history from before
the user message was added (`[system]`). -/
theorem transport_error_midturn_cex :
    runAgentLoop (fun _ => "ok")
        [RoundOutcome.ok [c7Delta], RoundOutcome.connectError]
        [Msg.system "sys", Msg.user "please"]
      = some c7FinalHistory ∧
    Msg.user "please" ∈ c7FinalHistory ∧
    some c7FinalHistory ≠ some [Msg.system "sys"] := by
  exact ⟨by decide, by decide, by decide⟩

/-- C7 (amended): when the streaming request fails with a transport error
(connection refused, connection timeout, or connection reset) while the
last history entry is the just-added pending user message — in particular
on the first round of a turn — the agent loop aborts and removes that user
message, leaving the history exactly what it was before it was added; when
such a failure happens on a later round (the last entry is then a tool
result), the error handler leaves the history unchanged. -/
theorem transport_error_rollback (execTool : ToolCall → String)
    (rest : List RoundOutcome) (h : List Msg) (u : String) :
    (runAgentLoop execTool (RoundOutcome.connectError :: rest) (h ++ [Msg.user u]) = some h) ∧
    (runAgentLoop execTool (RoundOutcome.timeoutError :: rest) (h ++ [Msg.user u]) = some h) ∧
    (runAgentLoop execTool (RoundOutcome.readError :: rest) (h ++ [Msg.user u]) = some h) ∧
    (∀ h2 : List Msg, lastRoleIsUser h2 = false →
      runAgentLoop execTool (RoundOutcome.connectError :: rest) h2 = some h2 ∧
      runAgentLoop execTool (RoundOutcome.timeoutError :: rest) h2 = some h2 ∧
      runAgentLoop execTool (RoundOutcome.readError :: rest) h2 = some h2) := by
  refine ⟨?_, ?_, ?_, ?_⟩
  · simp [runAgentLoop, popLastUserMessage_append_user]
  · simp [runAgentLoop, popLastUserMessage_append_user]
  · simp [runAgentLoop, popLastUserMessage_append_user]
  · intro h2 hlast
    refine ⟨?_, ?_, ?_⟩ <;> simp [runAgentLoop, popLastUserMessage_of_not_user h2 hlast]

/-- Witness for the amended C7: a first-round connection error removes the
pending user message, and one arriving when the last entry is a tool
result leaves the history unchanged. -/
theorem transport_error_rollback_witness :
    runAgentLoop (fun _ => "") [RoundOutcome.connectError]
        ([Msg.system "sys"] ++ [Msg.user "q"]) = some [Msg.system "sys"] ∧
    runAgentLoop (fun _ => "") [RoundOutcome.connectError]
        [Msg.system "sys", Msg.tool "call_a" "out"]
      = some [Msg.system "sys", Msg.tool "call_a" "out"] := by
  exact ⟨(transport_error_rollback (fun _ => "") [] [Msg.system "sys"] "q").1,
         ((transport_error_rollback (fun _ => "") [] [Msg.system "sys"] "q").2.2.2
            [Msg.system "sys", Msg.tool "call_a" "out"] (by decide)).1⟩

/-! ### Claim C8 -/

/-- C8: in every conversation history produced by the agent loop, each
tool-role message's `tool_call_id` references a tool call present in the
most recently appended assistant message (the one that introduced it); the
invariant holds after every append performed during a turn (every element
of `turnTrace`) and for the final history of the turn. -/
theorem tool_result_linkage (execTool : ToolCall → String)
    (rounds : List RoundOutcome) (h : List Msg)
    (hInv : toolLinkInvariant h = true) :
    (∀ h2 ∈ turnTrace execTool rounds h, toolLinkInvariant h2 = true) ∧
    (∀ hf : List Msg, runAgentLoop execTool rounds h = some hf →
      toolLinkInvariant hf = true) := by
  induction rounds generalizing h with
  | nil =>
    refine ⟨?_, ?_⟩
    · intro h2 hmem
      simp [turnTrace] at hmem
    · intro hf hrun
      simp [runAgentLoop] at hrun
  | cons r rest ih =>
    cases r with
    | interrupted deltas =>
      refine ⟨?_, ?_⟩
      · intro h2 hmem
        simp only [turnTrace] at hmem
        by_cases hc : streamContent deltas = ""
        · simp [hc] at hmem
        · simp [hc] at hmem
          subst hmem
          exact toolLinkInvariant_append_assistant h _ hInv
      · intro hf hrun
        simp only [runAgentLoop] at hrun
        by_cases hc : streamContent deltas = ""
        · simp [hc] at hrun
          rw [← hrun]
          exact hInv
        · simp [hc] at hrun
          rw [← hrun]
          exact toolLinkInvariant_append_assistant h _ hInv
    | connectError =>
      refine ⟨?_, ?_⟩
      · intro h2 hmem
        simp [turnTrace] at hmem
      · intro hf hrun
        simp only [runAgentLoop, Option.some_inj] at hrun
        rw [← hrun]
        exact toolLinkInvariant_popLastUser h hInv
    | timeoutError =>
      refine ⟨?_, ?_⟩
      · intro h2 hmem
        simp [turnTrace] at hmem
      · intro hf hrun
        simp only [runAgentLoop, Option.some_inj] at hrun
        rw [← hrun]
        exact toolLinkInvariant_popLastUser h hInv
    | readError =>
      refine ⟨?_, ?_⟩
      · intro h2 hmem
        simp [turnTrace] at hmem
      · intro hf hrun
        simp only [runAgentLoop, Option.some_inj] at hrun
        rw [← hrun]
        exact toolLinkInvariant_popLastUser h hInv
    | statusError code =>
      refine ⟨?_, ?_⟩
      · intro h2 hmem
        simp [turnTrace] at hmem
      · intro hf hrun
        simp only [runAgentLoop, Option.some_inj] at hrun
        rw [← hrun]
        exact hInv
    | otherError =>
      refine ⟨?_, ?_⟩
      · intro h2 hmem
        simp [turnTrace] at hmem
      · intro hf hrun
        simp only [runAgentLoop, Option.some_inj] at hrun
        rw [← hrun]
        exact hInv
    | ok deltas =>
      cases hte : (streamToolCalls deltas).isEmpty with
      | true =>
        refine ⟨?_, ?_⟩
        · intro h2 hmem
          simp only [turnTrace, hte, if_true] at hmem
          by_cases hc : streamContent deltas = ""
          · simp [hc] at hmem
          · simp [hc] at hmem
            subst hmem
            exact toolLinkInvariant_append_assistant h _ hInv
        · intro hf hrun
          simp only [runAgentLoop, hte, if_true] at hrun
          by_cases hc : streamContent deltas = ""
          · simp [hc] at hrun
            rw [← hrun]
            exact hInv
          · simp [hc] at hrun
            rw [← hrun]
            exact toolLinkInvariant_append_assistant h _ hInv
      | false =>
        have hInv1 : ∀ k, toolLinkInvariant
            ((h ++ [Msg.assistantToolCalls
                (if streamContent deltas = "" then none else some (streamContent deltas))
                (streamToolCalls deltas)]) ++
              (((streamToolCalls deltas).map
                (fun tc => Msg.tool tc.id (execTool tc))).take k)) = true :=
          fun k => inv_round_partial h _ (streamToolCalls deltas) execTool hInv k
        have hInvFull : toolLinkInvariant
            ((h ++ [Msg.assistantToolCalls
                (if streamContent deltas = "" then none else some (streamContent deltas))
                (streamToolCalls deltas)]) ++
              ((streamToolCalls deltas).map (fun tc => Msg.tool tc.id (execTool tc)))) = true := by
          have hlen := hInv1 ((streamToolCalls deltas).map
            (fun tc => Msg.tool tc.id (execTool tc))).length
          rwa [List.take_length] at hlen
        refine ⟨?_, ?_⟩
        · intro h2 hmem
          simp only [turnTrace, hte, if_false, Bool.false_eq_true] at hmem
          rcases List.mem_cons.mp hmem with rfl | hmem2
          · simpa using hInv1 0
          · rcases List.mem_append.mp hmem2 with hmem3 | hmem4
            · simp only [roundAppendStates, List.mem_map, List.mem_range] at hmem3
              obtain ⟨k, _, rfl⟩ := hmem3
              exact hInv1 (k + 1)
            · exact (ih _ hInvFull).1 h2 hmem4
        · intro hf hrun
          simp only [runAgentLoop, hte, if_false, Bool.false_eq_true] at hrun
          exact (ih _ hInvFull).2 hf hrun

/-- A one-tool-call stream delta used by the C8 witness. -/
def c8Delta : Delta :=
  { tool_calls := [{ index := 0, id := some "call_b", name := some "run", arguments := some "" }] }

/-- Witness for C8: starting from a valid history, the invariant holds at
a concrete mid-round append state of a tool-calling turn. -/
theorem tool_result_linkage_witness :
    toolLinkInvariant
      [Msg.system "sys", Msg.user "please",
       Msg.assistantToolCalls none [{ id := "call_b", name := "run", arguments := "" }],
       Msg.tool "call_b" "ok"] = true := by
  refine (tool_result_linkage (fun _ => "ok")
    [RoundOutcome.ok [c8Delta]] [Msg.system "sys", Msg.user "please"] (by decide)).1
    _ (by decide)

/-! ### `shell.py` — escape-gesture state machine

Embedding of `ShellWrapper._process_stdin_bytes` (src/llaminal/shell.py
lines 189–241) together with the flags it reads and writes.  Input bytes
are `Nat`s (`0x1b` = escape, `0x66` = `f`, `0x65` = `e`); the bytes the
code writes to the PTY master and the callbacks it fires are collected as
explicit outputs. -/

/-- The mutable state read/written by the gesture detector: the two
pending-state flags, whether each timer is armed, the AI-mode flag, and
whether the two shortcut callbacks are installed. -/
structure GestureState where
  escPending : Bool
  doubleEscPending : Bool
  escTimerArmed : Bool
  shortcutTimerArmed : Bool
  aiMode : Bool
  hasFixItCallback : Bool
  hasExplainItCallback : Bool
deriving DecidableEq, Repr

/-- The observable effects of processing a chunk: callbacks fired. -/
inductive GestureEvent where
  | fixIt
  | explainIt
  | enterAiMode
deriving DecidableEq, Repr

/-- `shell.py` lines 189–241, `_process_stdin_bytes`: byte-by-byte loop of
the 3-state escape detector.  Returns the final state, the bytes written
to the PTY master (in order), and the callbacks fired.  Timer callbacks
(`_esc_timeout_fired`, `_shortcut_timeout_fired`) are separate entry
points modelled below; `27` is the escape byte, `102` is `f`, `101` is
`e`. -/
def processStdinBytes (st : GestureState) : List Nat → GestureState × List Nat × List GestureEvent
  | [] => (st, [], [])
  | b :: rest =>
    if st.doubleEscPending then
      -- lines 206–219: DOUBLE_ESC — cancel shortcut timer, check shortcut key
      let st2 := { st with shortcutTimerArmed := false, doubleEscPending := false }
      if b = 102 ∧ st.hasFixItCallback then (st2, [], [GestureEvent.fixIt])
      else if b = 101 ∧ st.hasExplainItCallback then (st2, [], [GestureEvent.explainIt])
      else ({ st2 with aiMode := true }, [], [GestureEvent.enterAiMode])
    else if b = 27 then
      if st.escPending then
        -- lines 221–227: second ESC within timeout → DOUBLE_ESC
        processStdinBytes
          { st with escPending := false, doubleEscPending := true,
                    escTimerArmed := false, shortcutTimerArmed := true } rest
      else
        -- lines 228–231: first ESC → ESC_PENDING, start timer
        processStdinBytes { st with escPending := true, escTimerArmed := true } rest
    else
      if st.escPending then
        -- lines 232–239: non-ESC while pending → forward pending ESC + the
        -- rest of the chunk starting at this byte, and return
        ({ st with escPending := false, escTimerArmed := false }, 27 :: b :: rest, [])
      else
        -- line 241: plain passthrough byte
        let r := processStdinBytes st rest
        (r.1, b :: r.2.1, r.2.2)

/-- `shell.py` lines 256–260, `_esc_timeout_fired`: the 300 ms single-ESC
timer expiry — forward the escape byte to the shell, back to IDLE. -/
def escTimeoutFired (st : GestureState) : GestureState × List Nat :=
  ({ st with escPending := false, escTimerArmed := false }, [27])

/-- C3: whenever the gesture detector is in `ESC_PENDING` (and not in
`DOUBLE_ESC`) and the next byte processed is not an escape byte, it
returns to `IDLE` (both pending flags clear, escape timer cancelled) and
flushes the pending escape byte followed by that byte (and the remainder
of the chunk) to the shell unconsumed, with no shortcut callback invoked,
no callback event at all, and the AI-mode flag untouched. -/
theorem esc_pending_non_escape_flush (st : GestureState) (b : Nat) (rest : List Nat)
    (hdouble : st.doubleEscPending = false) (hpending : st.escPending = true)
    (hbyte : b ≠ 27) :
    processStdinBytes st (b :: rest) =
      ({ st with escPending := false, escTimerArmed := false }, 27 :: b :: rest, []) ∧
    (processStdinBytes st (b :: rest)).1.doubleEscPending = false ∧
    (processStdinBytes st (b :: rest)).1.aiMode = st.aiMode ∧
    (processStdinBytes st (b :: rest)).2.2 = [] := by
  have hmain : processStdinBytes st (b :: rest) =
      ({ st with escPending := false, escTimerArmed := false }, 27 :: b :: rest, []) := by
    simp [processStdinBytes, hdouble, hpending, hbyte]
  refine ⟨hmain, ?_, ?_, ?_⟩
  · rw [hmain]
    exact hdouble
  · rw [hmain]
  · rw [hmain]

/-- Witness for C3: the arrow-key sequence `ESC [ A` arriving in one chunk
after the first escape put the machine in `ESC_PENDING` reaches the shell
intact. -/
theorem esc_pending_non_escape_flush_witness :
    processStdinBytes
        { escPending := true, doubleEscPending := false, escTimerArmed := true,
          shortcutTimerArmed := false, aiMode := false,
          hasFixItCallback := true, hasExplainItCallback := true }
        [91, 65] =
      ({ escPending := false, doubleEscPending := false, escTimerArmed := false,
         shortcutTimerArmed := false, aiMode := false,
         hasFixItCallback := true, hasExplainItCallback := true },
       [27, 91, 65], []) := by
  have hmain := (esc_pending_non_escape_flush
    { escPending := true, doubleEscPending := false, escTimerArmed := true,
      shortcutTimerArmed := false, aiMode := false,
      hasFixItCallback := true, hasExplainItCallback := true }
    91 [65] (by decide) (by decide) (by decide)).1
  rw [hmain]

/-! ### `pty_executor.py` — marker-protocol command executor

Embedding of `PtyExecutor.execute` (src/llaminal/pty_executor.py lines
17–97) and its helpers `_extract_output_raw` (124–129) and
`_format_result` (132–146).  The PTY side effects become an explicit
action trace; the awaited marker future becomes an explicit
`WaitOutcome` input (found before the deadline, or timed out with the
accumulated text so far). -/

/-- One lowercase hexadecimal digit character, as produced by Python
`f"{n:x}"` for `n < 16`. -/
def hexDigitChar (n : Nat) : Char :=
  List.getD "0123456789abcdef".data n '0'

/-- One decimal digit character, as produced by Python `"%d"` for `n < 10`. -/
def decDigitChar (n : Nat) : Char :=
  List.getD "0123456789".data n '0'

/-- Python `f"{n:x}"`: lowercase hex representation, most significant digit
first, no leading zeros (`"0"` for 0). -/
def hexChars (n : Nat) : List Char :=
  if n < 16 then [hexDigitChar n]
  else hexChars (n / 16) ++ [hexDigitChar (n % 16)]
decreasing_by exact Nat.div_lt_self (by omega) (by omega)

/-- Python `"%d" % n` for a natural number: decimal representation. -/
def decChars (n : Nat) : List Char :=
  if n < 10 then [decDigitChar n]
  else decChars (n / 10) ++ [decDigitChar (n % 10)]
decreasing_by exact Nat.div_lt_self (by omega) (by omega)

theorem hexChars_lt (n : Nat) (h : n < 16) : hexChars n = [hexDigitChar n] := by
  rw [hexChars.eq_def]
  simp [h]

theorem hexChars_ge (n : Nat) (h : ¬ n < 16) :
    hexChars n = hexChars (n / 16) ++ [hexDigitChar (n % 16)] := by
  rw [hexChars.eq_def]
  simp [h]

theorem decChars_lt (n : Nat) (h : n < 10) : decChars n = [decDigitChar n] := by
  rw [decChars.eq_def]
  simp [h]

theorem decChars_ge (n : Nat) (h : ¬ n < 10) :
    decChars n = decChars (n / 10) ++ [decDigitChar (n % 10)] := by
  rw [decChars.eq_def]
  simp [h]

theorem hexDigitChar_ne_underscore (n : Nat) : hexDigitChar n ≠ '_' := by
  by_cases h : n < 16
  · unfold hexDigitChar
    interval_cases n <;> decide
  · unfold hexDigitChar
    rw [List.getD_eq_default]
    · decide
    · have hlen : ("0123456789abcdef".data).length = 16 := by decide
      omega

theorem hexChars_ne_nil (n : Nat) : hexChars n ≠ [] := by
  by_cases h : n < 16
  · rw [hexChars_lt n h]; simp
  · rw [hexChars_ge n h]; simp

theorem hexChars_no_underscore (n : Nat) : '_' ∉ hexChars n := by
  induction n using Nat.strong_induction_on with
  | _ n ih =>
    by_cases h : n < 16
    · rw [hexChars_lt n h]
      simp only [List.mem_singleton]
      exact fun hc => hexDigitChar_ne_underscore n hc.symm
    · rw [hexChars_ge n h]
      intro hmem
      rcases List.mem_append.mp hmem with h1 | h2
      · exact ih (n / 16) (Nat.div_lt_self (by omega) (by omega)) h1
      · rw [List.mem_singleton] at h2
        exact hexDigitChar_ne_underscore (n % 16) h2.symm

theorem decDigitChar_isDigit (n : Nat) : (decDigitChar n).isDigit = true := by
  by_cases h : n < 10
  · unfold decDigitChar
    interval_cases n <;> decide
  · unfold decDigitChar
    rw [List.getD_eq_default]
    · decide
    · have hlen : ("0123456789".data).length = 10 := by decide
      omega

theorem decChars_ne_nil (n : Nat) : decChars n ≠ [] := by
  by_cases h : n < 10
  · rw [decChars_lt n h]; simp
  · rw [decChars_ge n h]; simp

theorem decChars_all_digits (n : Nat) : ∀ c ∈ decChars n, c.isDigit = true := by
  induction n using Nat.strong_induction_on with
  | _ n ih =>
    intro c hc
    by_cases h : n < 10
    · rw [decChars_lt n h] at hc
      rw [List.mem_singleton] at hc
      rw [hc]
      exact decDigitChar_isDigit n
    · rw [decChars_ge n h] at hc
      rcases List.mem_append.mp hc with h1 | h2
      · exact ih (n / 10) (Nat.div_lt_self (by omega) (by omega)) c h1
      · rw [List.mem_singleton] at h2
        rw [h2]
        exact decDigitChar_isDigit (n % 10)

theorem hexChars_injective : ∀ m : Nat, ∀ n : Nat, hexChars m = hexChars n → m = n := by
  have hinj : ∀ a, a < 16 → ∀ b, b < 16 → hexDigitChar a = hexDigitChar b → a = b := by
    decide
  intro m
  induction m using Nat.strong_induction_on with
  | _ m ih =>
    intro n heq
    by_cases hm : m < 16 <;> by_cases hn : n < 16
    · rw [hexChars_lt m hm, hexChars_lt n hn] at heq
      exact hinj m hm n hn (List.singleton_injective heq)
    · rw [hexChars_lt m hm, hexChars_ge n hn] at heq
      cases hq : hexChars (n / 16) with
      | nil => exact absurd hq (hexChars_ne_nil (n / 16))
      | cons c cs =>
        rw [hq] at heq
        simp at heq
    · rw [hexChars_ge m hm, hexChars_lt n hn] at heq
      cases hq : hexChars (m / 16) with
      | nil => exact absurd hq (hexChars_ne_nil (m / 16))
      | cons c cs =>
        rw [hq] at heq
        simp at heq
    · rw [hexChars_ge m hm, hexChars_ge n hn] at heq
      obtain ⟨h1, h2⟩ := List.append_inj' heq rfl
      have hdiv : m / 16 = n / 16 :=
        ih (m / 16) (Nat.div_lt_self (by omega) (by omega)) (n / 16) h1
      have hmod : m % 16 = n % 16 :=
        hinj (m % 16) (Nat.mod_lt m (by omega)) (n % 16) (Nat.mod_lt n (by omega))
          (List.singleton_injective h2)
      omega

/-- `pty_executor.py` line 41: `marker_id = f"{os.getpid():x}{self._counter:x}"`. -/
def markerId (pid counter : Nat) : String :=
  String.mk (hexChars pid ++ hexChars counter)

/-- `pty_executor.py` line 42: `marker = f"___LLAMINAL_DONE_{marker_id}"`. -/
def markerStr (pid counter : Nat) : String :=
  "___LLAMINAL_DONE_" ++ markerId pid counter

/-- `pty_executor.py` lines 43–45: the compiled detection pattern
`^<marker>_(\d+)___$` with `re.MULTILINE`, as a predicate on one output
line: the line is exactly the escaped marker followed by an underscore,
one or more decimal digits, and three underscores. -/
def markerPatternMatches (marker : String) (line : String) : Prop :=
  ∃ ds : List Char, ds ≠ [] ∧ (∀ c ∈ ds, c.isDigit = true) ∧
    line.data = marker.data ++ '_' :: (ds ++ ['_', '_', '_'])

/-- The marker line a completed execution prints (`printf
'\n<marker>_%d___\n' $?` in `cmd_str`, line 50), for exit status `e`. -/
def emittedMarkerLine (pid counter e : Nat) : String :=
  markerStr pid counter ++ "_" ++ String.mk (decChars e) ++ "___"

theorem underscore_seam_inj (a : List Char) :
    ∀ b x y : List Char, '_' ∉ a → '_' ∉ b →
      a ++ '_' :: x = b ++ '_' :: y → a = b := by
  induction a with
  | nil =>
    intro b x y _ hb heq
    cases b with
    | nil => rfl
    | cons d b2 =>
      injection heq with h1 _
      exact absurd (h1 ▸ List.mem_cons_self d b2) hb
  | cons c a2 ih =>
    intro b x y ha hb heq
    cases b with
    | nil =>
      injection heq with h1 _
      exact absurd (h1 ▸ List.mem_cons_self c a2) ha
    | cons d b2 =>
      injection heq with h1 h2
      have ha2 : '_' ∉ a2 := fun hm => ha (List.mem_cons_of_mem c hm)
      have hb2 : '_' ∉ b2 := fun hm => hb (List.mem_cons_of_mem d hm)
      rw [h1, ih b2 x y ha2 hb2 h2]

theorem markerStr_data (pid counter : Nat) :
    (markerStr pid counter).data =
      "___LLAMINAL_DONE_".data ++ (hexChars pid ++ hexChars counter) := by
  unfold markerStr markerId
  rw [String.data_append]

theorem emittedMarkerLine_data (pid counter e : Nat) :
    (emittedMarkerLine pid counter e).data =
      (markerStr pid counter).data ++ '_' :: (decChars e ++ ['_', '_', '_']) := by
  unfold emittedMarkerLine
  rw [String.data_append, String.data_append, String.data_append]
  have h1 : "_".data = ['_'] := by decide
  have h3 : "___".data = ['_', '_', '_'] := by decide
  rw [h1, h3]
  simp [List.append_assoc]

/-- One PTY side effect of `PtyExecutor.execute`, in program order:
`self._wrapper.write_to_shell(...)`, `add_master_output_callback`,
`set_show_pty_output`, the 0.2 s grace `asyncio.sleep`, and the removal
of the transient callback in the `finally` block. -/
inductive PtyAction where
  | writeShell (data : String)
  | registerOutputCallback
  | setShowPtyOutput (value : Bool)
  | sleepGrace
  | removeOutputCallback
deriving DecidableEq, Repr

/-- How the awaited marker future resolves: the marker line was found
(the callback resolved it with extracted output and parsed exit code), or
`asyncio.wait_for` raised `TimeoutError` with `accumulated` being the
output captured so far. -/
inductive WaitOutcome where
  | markerFound (output : String) (exitCode : Int)
  | timedOut (accumulated : String)
deriving DecidableEq, Repr

/-- The outcome of one `PtyExecutor.execute` call: the PTY actions
performed in order, the returned result string, and the executor's
counter afterwards. -/
structure ExecResult where
  actions : List PtyAction
  result : String
  counter : Nat
deriving DecidableEq, Repr

/-- `pty_executor.py` line 50: `cmd_str = f"{command}; printf
'\\n{marker}_%d___\\n' $?\n"`. -/
def cmdStr (command marker : String) : String :=
  command ++ "; printf " ++ apos ++ "\\n" ++ marker ++ "_%d___\\n" ++ apos ++ " $?\n"

/-- `pty_executor.py` lines 124–129, `_extract_output_raw`: drop the
echoed command line (everything up to and including the first newline, if
any) and strip the remainder. -/
def extractOutputRaw (accumulated command : String) : String :=
  if '\n' ∈ accumulated.data then
    pyStrip (String.mk ((accumulated.data.dropWhile (fun c => c != '\n')).drop 1))
  else pyStrip accumulated

/-- `pty_executor.py` lines 137–138: cap output at 10 KB (first 5 KB +
truncation note + last 5 KB). -/
def capOutput (output : String) : String :=
  if output.data.length > 10000 then
    String.mk (output.data.take 5000) ++ "\n... (output truncated) ...\n" ++
      String.mk (output.data.drop (output.data.length - 5000))
  else output

/-- `pty_executor.py` lines 140–145: the `parts` list joined by
`_format_result` (`f"stdout: ..."`, `f"exit_code: ..."`, and either the
two timeout lines or `"timed_out: false"`). -/
def formatResultParts (output : String) (exitCode : Int) (timedOut : Bool)
    (timeoutSecs : Nat) : List String :=
  ["stdout: " ++ capOutput output, "exit_code: " ++ toString exitCode] ++
    (if timedOut then
      ["timed_out: true", "Error: command timed out after " ++ toString timeoutSecs ++ "s"]
     else ["timed_out: false"])

/-- `pty_executor.py` lines 132–146, `_format_result`:
`"\n".join(parts)` (the float `timeout_secs` is modelled as the whole
number of seconds, matching the `:.0f` format of the default 30.0). -/
def formatResult (output : String) (exitCode : Int) (timedOut : Bool)
    (timeoutSecs : Nat) : String :=
  String.intercalate "\n" (formatResultParts output exitCode timedOut timeoutSecs)

/-- `pty_executor.py` lines 17–97, `PtyExecutor.execute`, as a function of
the command, the user's confirmation answer, the process id, the
executor's current counter, the wait outcome and the timeout: the
confirmation prompt (`input().strip().lower() != "y"`) either cancels
without touching the PTY, or the counter is incremented, the marker built,
the callback registered, output display enabled, the marker-suffixed
command written, and — depending on the outcome — either the formatted
result is returned, or on timeout a `\x03` interrupt byte is written, the
grace sleep taken, and the timed-out result built from the partial
output; the `finally` block then disables output display and removes the
callback before the value is returned. -/
def executeM (command answer : String) (pid counter : Nat)
    (outcome : WaitOutcome) (timeoutSecs : Nat) : ExecResult :=
  if pyLower (pyStrip answer) ≠ "y" then
    { actions := [], result := "Command execution cancelled by user.", counter := counter }
  else
    let newCounter := counter + 1
    let marker := markerStr pid newCounter
    match outcome with
    | WaitOutcome.markerFound output exitCode =>
      { actions := [PtyAction.registerOutputCallback, PtyAction.setShowPtyOutput true,
                    PtyAction.writeShell (cmdStr command marker),
                    PtyAction.setShowPtyOutput false, PtyAction.removeOutputCallback],
        result := formatResult output exitCode false 0,
        counter := newCounter }
    | WaitOutcome.timedOut accumulated =>
      { actions := [PtyAction.registerOutputCallback, PtyAction.setShowPtyOutput true,
                    PtyAction.writeShell (cmdStr command marker),
                    PtyAction.writeShell (String.mk [Char.ofNat 3]),
                    PtyAction.sleepGrace,
                    PtyAction.setShowPtyOutput false, PtyAction.removeOutputCallback],
        result := formatResult (extractOutputRaw accumulated command) (-1) true timeoutSecs,
        counter := newCounter }

/-! ### Claims C4, C5, C9 -/

/-- C4: for every `PtyExecutor.execute` invocation (confirmed by the
user) in which the marker does not appear in the accumulated PTY output
before the wall-clock timeout expires, `execute` writes a `\x03`
interrupt byte into the PTY, takes the grace sleep, and returns — instead
of raising — a structured result built from whatever partial output was
captured, with exit code −1 and a `timed_out: true` marker line. -/
theorem timeout_structured_result (command answer : String) (pid counter : Nat)
    (accumulated : String) (t : Nat)
    (hconfirm : pyLower (pyStrip answer) = "y") :
    executeM command answer pid counter (WaitOutcome.timedOut accumulated) t =
      { actions := [PtyAction.registerOutputCallback, PtyAction.setShowPtyOutput true,
                    PtyAction.writeShell (cmdStr command (markerStr pid (counter + 1))),
                    PtyAction.writeShell (String.mk [Char.ofNat 3]),
                    PtyAction.sleepGrace,
                    PtyAction.setShowPtyOutput false, PtyAction.removeOutputCallback],
        result := formatResult (extractOutputRaw accumulated command) (-1) true t,
        counter := counter + 1 } ∧
    "exit_code: -1" ∈ formatResultParts (extractOutputRaw accumulated command) (-1) true t ∧
    "timed_out: true" ∈ formatResultParts (extractOutputRaw accumulated command) (-1) true t := by
  have hint : "exit_code: " ++ toString (-1 : Int) = "exit_code: -1" := by decide
  refine ⟨?_, ?_, ?_⟩
  · simp [executeM, hconfirm]
  · simp [formatResultParts, hint]
  · simp [formatResultParts]

/-- Witness for C4: a concrete confirmed execution that times out returns
the timed-out structured result and reports `timed_out: true` and
`exit_code: -1`. -/
theorem timeout_structured_result_witness :
    (executeM "sleep 99" " Y " 4660 0 (WaitOutcome.timedOut "echoed\npartial") 30).result =
      formatResult (extractOutputRaw "echoed\npartial" "sleep 99") (-1) true 30 ∧
    "timed_out: true" ∈ formatResultParts (extractOutputRaw "echoed\npartial" "sleep 99") (-1) true 30 := by
  have h := timeout_structured_result "sleep 99" " Y " 4660 0 "echoed\npartial" 30 (by decide)
  exact ⟨by rw [h.1], h.2.2⟩

/-- C9: when the user's confirmation answer, stripped and lowercased, is
not the accepted `"y"`, `execute` returns the "cancelled by user" result
without touching the PTY: the action trace is empty (no bytes written
into the shell, no transient output observer registered, and the
output-suppression state never changed) and the per-session counter is
left unchanged. -/
theorem decline_cancels_without_pty (command answer : String) (pid counter : Nat)
    (outcome : WaitOutcome) (t : Nat)
    (hdecline : pyLower (pyStrip answer) ≠ "y") :
    executeM command answer pid counter outcome t =
      { actions := [], result := "Command execution cancelled by user.",
        counter := counter } := by
  simp [executeM, hdecline]

/-- Witness for C9: declining with `"n"` cancels with an empty action
trace. -/
theorem decline_cancels_without_pty_witness :
    executeM "make install" "n" 4660 7 (WaitOutcome.markerFound "" 0) 30 =
      { actions := [], result := "Command execution cancelled by user.", counter := 7 } :=
  decline_cancels_without_pty "make install" "n" 4660 7 (WaitOutcome.markerFound "" 0) 30
    (by decide)

/-- C5: within one process, for any two distinct counter values of one
`PtyExecutor` instance (each confirmed execution increments the
per-session counter, as the last conjunct shows), the generated marker
strings are distinct, a marker line emitted by one execution never
matches the marker-detection pattern of the other execution, and each
execution's own marker line does match its own pattern. -/
theorem marker_uniqueness (pid c1 c2 : Nat) (hne : c1 ≠ c2) (e : Nat) :
    markerStr pid c1 ≠ markerStr pid c2 ∧
    ¬ markerPatternMatches (markerStr pid c2) (emittedMarkerLine pid c1 e) ∧
    markerPatternMatches (markerStr pid c1) (emittedMarkerLine pid c1 e) ∧
    (∀ command answer outcome t, pyLower (pyStrip answer) = "y" →
      (executeM command answer pid c1 outcome t).counter = c1 + 1) := by
  refine ⟨?_, ?_, ?_, ?_⟩
  · intro heq
    have hd := congrArg String.data heq
    rw [markerStr_data, markerStr_data] at hd
    have h1 := List.append_cancel_left hd
    have h2 := List.append_cancel_left h1
    exact hne (hexChars_injective c1 c2 h2)
  · rintro ⟨ds, _, _, heq⟩
    rw [emittedMarkerLine_data, markerStr_data, markerStr_data] at heq
    simp only [List.append_assoc] at heq
    have h1 := List.append_cancel_left heq
    have h2 := List.append_cancel_left h1
    have h3 := underscore_seam_inj (hexChars c1) (hexChars c2) _ _
      (hexChars_no_underscore c1) (hexChars_no_underscore c2) h2
    exact hne (hexChars_injective c1 c2 h3)
  · exact ⟨decChars e, decChars_ne_nil e, decChars_all_digits e,
      emittedMarkerLine_data pid c1 e⟩
  · intro command answer outcome t hconfirm
    cases outcome <;> simp [executeM, hconfirm]

/-- Witness for C5: concrete distinct executions 1 and 2 of one executor
in process 4660. -/
theorem marker_uniqueness_witness :
    markerStr 4660 1 ≠ markerStr 4660 2 ∧
    ¬ markerPatternMatches (markerStr 4660 2) (emittedMarkerLine 4660 1 0) ∧
    markerPatternMatches (markerStr 4660 1) (emittedMarkerLine 4660 1 0) ∧
    (executeM "true" "y" 4660 1 (WaitOutcome.markerFound "" 0) 30).counter = 2 := by
  have h := marker_uniqueness 4660 1 2 (by decide) 0
  exact ⟨h.1, h.2.1, h.2.2.1,
    h.2.2.2 "true" "y" (WaitOutcome.markerFound "" 0) 30 (by decide)⟩

/-! ### `tools/registry.py` — tool dispatch

Embedding of `ToolRegistry.execute` (src/llaminal/tools/registry.py lines
43–50).  The registry dict is modelled as a lookup function; a tool's
`execute` coroutine either returns a string or raises, modelled as
`Except String String` with the raised exception's display text in the
error case; the argument dict is an opaque type parameter (a `TypeError`
from mismatched keyword arguments is just another raised exception). -/

/-- `ToolRegistry.execute`: unknown names and raising tools are converted
to error strings; a normal result is returned as-is. -/
def registryExecute {α : Type} (tools : String → Option (α → Except String String))
    (name : String) (args : α) : String :=
  match tools name with
  | none => "Error: unknown tool " ++ apos ++ name ++ apos
  | some f =>
    match f args with
    | Except.ok s => s
    | Except.error e => "Error executing " ++ name ++ ": " ++ e

/-- C10: `ToolRegistry.execute` always produces a string and never
propagates an exception: an unregistered name yields
`Error: unknown tool '<name>'`, a raising tool yields
`Error executing <name>: <exception>`, and a normal result is passed
through unchanged (totality of `registryExecute` is the no-raise
property). -/
theorem registry_execute_total {α : Type}
    (tools : String → Option (α → Except String String)) (name : String) (args : α) :
    (tools name = none →
      registryExecute tools name args = "Error: unknown tool " ++ apos ++ name ++ apos) ∧
    (∀ f e, tools name = some f → f args = Except.error e →
      registryExecute tools name args = "Error executing " ++ name ++ ": " ++ e) ∧
    (∀ f s, tools name = some f → f args = Except.ok s →
      registryExecute tools name args = s) := by
  refine ⟨?_, ?_, ?_⟩
  · intro hnone
    simp [registryExecute, hnone]
  · intro f e hsome herr
    simp [registryExecute, hsome, herr]
  · intro f s hsome hok
    simp [registryExecute, hsome, hok]

/-- A concrete three-behaviour registry for the C10 witness. -/
def c10Tools : String → Option (Nat → Except String String) := fun n =>
  if n = "echo" then some (fun _ => Except.ok "done")
  else if n = "boom" then some (fun _ => Except.error "ValueError: bad")
  else none

/-- Witness for C10: unknown name, raising tool, and normal tool each
produce the documented string. -/
theorem registry_execute_total_witness :
    registryExecute c10Tools "nope" 0 = "Error: unknown tool " ++ apos ++ "nope" ++ apos ∧
    registryExecute c10Tools "boom" 0 = "Error executing boom: ValueError: bad" ∧
    registryExecute c10Tools "echo" 0 = "done" := by
  refine ⟨(registry_execute_total c10Tools "nope" 0).1 rfl, ?_, ?_⟩
  · exact (registry_execute_total c10Tools "boom" 0).2.1
      (fun _ => Except.error "ValueError: bad") "ValueError: bad" rfl rfl
  · exact (registry_execute_total c10Tools "echo" 0).2.2
      (fun _ => Except.ok "done") "done" rfl rfl

/-! ### `scrollback.py` — compression pipeline

Embedding of `_is_progress_line`, `_compress` and the line-level part of
`ScrollbackCapture.get_context` (src/llaminal/scrollback.py).  The six
`_PROGRESS_PATTERNS` regexes are translated into executable searches over
the character list (a `\d+` before `%` matches iff its last digit does,
so a single digit immediately before `%` is checked). -/

/-- Search for `\[#+`: a `[` immediately followed by `#` somewhere in the
line. -/
def hasHashBar : List Char → Bool
  | [] => false
  | '[' :: '#' :: _ => true
  | _ :: rest => hasHashBar rest

/-- The `\s*\|[=▮█]` continuation of the `\d+%\s*\|[=▮█]` pattern. -/
def barTail (l : List Char) : Bool :=
  match l.dropWhile isPyWhitespace with
  | '|' :: b :: _ => b = '=' || b = '▮' || b = '█'
  | _ => false

/-- The `\s*━` continuation of the `\d+%\s*━` pattern. -/
def richTail (l : List Char) : Bool :=
  match l.dropWhile isPyWhitespace with
  | c :: _ => c = '━'
  | _ => false

/-- Search for a digit immediately followed by `%` whose remaining suffix
satisfies `tail` (equivalent to searching `\d+%` followed by the tail). -/
def hasDigitPercent (tail : List Char → Bool) : List Char → Bool
  | [] => false
  | c :: cs =>
    (c.isDigit &&
      match cs with
      | '%' :: rest => tail rest
      | _ => false) || hasDigitPercent tail cs

/-- Search for a digit immediately followed by `%` anywhere (`.*\d+%`). -/
def hasDigitPercentAnywhere : List Char → Bool :=
  hasDigitPercent (fun _ => true)

/-- Search for an occurrence of `pat` followed (at any distance) by
`\d+%` — the shape of `Downloading.*\d+%`, `Uploading.*\d+%` and
`\r.*\d+%`. -/
def hasSubThenDigitPercent (pat : List Char) : List Char → Bool
  | [] => false
  | c :: cs =>
    (pat.isPrefixOf (c :: cs) && hasDigitPercentAnywhere ((c :: cs).drop pat.length))
      || hasSubThenDigitPercent pat cs

/-- `scrollback.py` lines 8–19, `_is_progress_line`: whether any of the
six progress-indicator patterns matches the line. -/
def isProgressLine (line : String) : Bool :=
  hasHashBar line.data
    || hasDigitPercent barTail line.data
    || hasDigitPercent richTail line.data
    || hasSubThenDigitPercent "Downloading".data line.data
    || hasSubThenDigitPercent "Uploading".data line.data
    || hasSubThenDigitPercent ['\r'] line.data

/-- The `f"... ({count - 2} lines of progress output) ..."` marker. -/
def progressMarker (n : Nat) : String :=
  "... (" ++ toString n ++ " lines of progress output) ..."

/-- The `f"... ({block_len - 40} lines truncated) ..."` marker. -/
def truncMarker (k : Nat) : String :=
  "... (" ++ toString k ++ " lines truncated) ..."

theorem dropWhile_length_le {α : Type} (p : α → Bool) (l : List α) :
    (l.dropWhile p).length ≤ l.length := by
  induction l with
  | nil => simp [List.dropWhile]
  | cons a t ih =>
    by_cases h : p a
    · simp only [List.dropWhile, h, List.length_cons]
      omega
    · simp [List.dropWhile, h]

/-- `scrollback.py` lines 26–44 (`_compress`, pass 1) with an explicit
fuel argument standing for the loop's progress bound so the recursion is
structural (each iteration consumes at least one line, so `lines.length`
fuel always suffices; the out-of-fuel case is unreachable from the
wrapper below). -/
def collapseProgressGo : Nat → List String → List String
  | _, [] => []
  | 0, _ :: _ => []
  | fuel + 1, l :: ls =>
    if isProgressLine l then
      let run := l :: ls.takeWhile (fun s => isProgressLine s)
      let rest := ls.dropWhile (fun s => isProgressLine s)
      (if run.length > 2 then [l, progressMarker (run.length - 2), run.getLastD ""]
       else run) ++ collapseProgressGo fuel rest
    else l :: collapseProgressGo fuel ls

/-- `_compress` pass 1: collapse runs of more than two consecutive
progress lines to first line + marker + last line. -/
def collapseProgress (lines : List String) : List String :=
  collapseProgressGo lines.length lines

/-- `scrollback.py` lines 47–64 (`_compress`, pass 2) with fuel, as for
pass 1. -/
def truncateBlocksGo : Nat → List String → List String
  | _, [] => []
  | 0, _ :: _ => []
  | fuel + 1, l :: ls =>
    if l = "" then l :: truncateBlocksGo fuel ls
    else
      let block := l :: ls.takeWhile (fun s => s != "")
      let rest := ls.dropWhile (fun s => s != "")
      (if block.length > 80 then
        block.take 20 ++ [truncMarker (block.length - 40)] ++ block.drop (block.length - 20)
       else block) ++ truncateBlocksGo fuel rest

/-- `_compress` pass 2: truncate contiguous blocks of more than 80
non-blank lines to first 20 + marker + last 20. -/
def truncateBlocks (lines : List String) : List String :=
  truncateBlocksGo lines.length lines

/-- `scrollback.py` lines 67–76 (`_compress`, pass 3): collapse runs of
blank lines to a single blank line (`prevBlank` is the `prev_blank`
flag). -/
def dedupBlanks (prevBlank : Bool) : List String → List String
  | [] => []
  | l :: ls =>
    if l = "" then
      if prevBlank then dedupBlanks true ls else l :: dedupBlanks true ls
    else l :: dedupBlanks false ls

/-- `scrollback.py` lines 22–78, `_compress`: the three passes in order. -/
def compress (lines : List String) : List String :=
  dedupBlanks false (truncateBlocks (collapseProgress lines))

/-- `get_context` line 113–114: drop trailing blank lines. -/
def trimTrailingBlanks (lines : List String) : List String :=
  (lines.reverse.dropWhile (fun s => s == "")).reverse

/-- `scrollback.py` lines 104–127, `ScrollbackCapture.get_context`, from
the extracted line list onward: trim trailing blanks, return `none` if
nothing remains, compress, cap at the last `maxLines` lines, join and
strip, returning `none` for an empty result. -/
def getContextFromLines (lines : List String) (maxLines : Nat) : Option String :=
  let lines2 := trimTrailingBlanks lines
  if lines2.isEmpty then none
  else
    let lines3 := compress lines2
    let lines4 := if lines3.length > maxLines then lines3.drop (lines3.length - maxLines)
                  else lines3
    let text := pyStrip (String.intercalate "\n" lines4)
    if text = "" then none else some text

/-! ### Unfolding lemmas for the compression passes (for C6) -/

theorem collapseProgressGo_nil (f : Nat) : collapseProgressGo f [] = [] := by
  cases f <;> rfl

theorem collapseProgressGo_fuel :
    ∀ f1 : Nat, ∀ xs : List String, ∀ f2 : Nat,
      xs.length ≤ f1 → xs.length ≤ f2 →
      collapseProgressGo f1 xs = collapseProgressGo f2 xs := by
  intro f1
  induction f1 with
  | zero =>
    intro xs f2 h1 _
    have hx : xs = [] := List.length_eq_zero.mp (by omega)
    subst hx
    rw [collapseProgressGo_nil, collapseProgressGo_nil]
  | succ f ih =>
    intro xs f2 h1 h2
    cases xs with
    | nil => rw [collapseProgressGo_nil, collapseProgressGo_nil]
    | cons l ls =>
      cases f2 with
      | zero => simp at h2
      | succ f2 =>
        have hls1 : ls.length ≤ f := by
          simp only [List.length_cons] at h1
          omega
        have hls2 : ls.length ≤ f2 := by
          simp only [List.length_cons] at h2
          omega
        simp only [collapseProgressGo]
        rw [ih ls f2 hls1 hls2,
            ih (List.dropWhile (fun s => isProgressLine s) ls) f2
              (le_trans (dropWhile_length_le _ ls) hls1)
              (le_trans (dropWhile_length_le _ ls) hls2)]

theorem collapseProgress_cons_nonprog (l : String) (ls : List String)
    (hl : isProgressLine l = false) :
    collapseProgress (l :: ls) = l :: collapseProgress ls := by
  simp [collapseProgress, collapseProgressGo, hl]

theorem collapseProgress_cons_prog (l : String) (ls : List String)
    (hl : isProgressLine l = true) :
    collapseProgress (l :: ls) =
      (if (l :: ls.takeWhile (fun s => isProgressLine s)).length > 2 then
        [l, progressMarker ((l :: ls.takeWhile (fun s => isProgressLine s)).length - 2),
         (l :: ls.takeWhile (fun s => isProgressLine s)).getLastD ""]
       else l :: ls.takeWhile (fun s => isProgressLine s))
      ++ collapseProgress (ls.dropWhile (fun s => isProgressLine s)) := by
  unfold collapseProgress
  simp only [List.length_cons, collapseProgressGo, hl, if_true]
  congr 1
  exact collapseProgressGo_fuel ls.length _ _ (dropWhile_length_le _ ls) (le_refl _)

theorem truncateBlocksGo_nil (f : Nat) : truncateBlocksGo f [] = [] := by
  cases f <;> rfl

theorem truncateBlocksGo_fuel :
    ∀ f1 : Nat, ∀ xs : List String, ∀ f2 : Nat,
      xs.length ≤ f1 → xs.length ≤ f2 →
      truncateBlocksGo f1 xs = truncateBlocksGo f2 xs := by
  intro f1
  induction f1 with
  | zero =>
    intro xs f2 h1 _
    have hx : xs = [] := List.length_eq_zero.mp (by omega)
    subst hx
    rw [truncateBlocksGo_nil, truncateBlocksGo_nil]
  | succ f ih =>
    intro xs f2 h1 h2
    cases xs with
    | nil => rw [truncateBlocksGo_nil, truncateBlocksGo_nil]
    | cons l ls =>
      cases f2 with
      | zero => simp at h2
      | succ f2 =>
        have hls1 : ls.length ≤ f := by
          simp only [List.length_cons] at h1
          omega
        have hls2 : ls.length ≤ f2 := by
          simp only [List.length_cons] at h2
          omega
        simp only [truncateBlocksGo]
        rw [ih ls f2 hls1 hls2,
            ih (List.dropWhile (fun s => s != "") ls) f2
              (le_trans (dropWhile_length_le _ ls) hls1)
              (le_trans (dropWhile_length_le _ ls) hls2)]

theorem truncateBlocks_cons_blank (ls : List String) :
    truncateBlocks ("" :: ls) = "" :: truncateBlocks ls := by
  simp [truncateBlocks, truncateBlocksGo]

theorem truncateBlocks_cons_nonblank (l : String) (ls : List String)
    (hl : ¬ l = "") :
    truncateBlocks (l :: ls) =
      (if (l :: ls.takeWhile (fun s => s != "")).length > 80 then
        (l :: ls.takeWhile (fun s => s != "")).take 20 ++
          [truncMarker ((l :: ls.takeWhile (fun s => s != "")).length - 40)] ++
          (l :: ls.takeWhile (fun s => s != "")).drop
            ((l :: ls.takeWhile (fun s => s != "")).length - 20)
       else l :: ls.takeWhile (fun s => s != ""))
      ++ truncateBlocks (ls.dropWhile (fun s => s != "")) := by
  unfold truncateBlocks
  simp only [List.length_cons, truncateBlocksGo, hl, if_false]
  congr 1
  exact truncateBlocksGo_fuel ls.length _ _ (dropWhile_length_le _ ls) (le_refl _)

theorem takeWhile_append_all {α : Type} (p : α → Bool) (xs ys : List α)
    (h : ∀ x ∈ xs, p x = true) :
    List.takeWhile p (xs ++ ys) = xs ++ List.takeWhile p ys := by
  induction xs with
  | nil => simp
  | cons a t ih =>
    have ha := h a (List.mem_cons_self a t)
    simp only [List.cons_append, List.takeWhile_cons, ha, if_true]
    rw [ih (fun x hx => h x (List.mem_cons_of_mem a hx))]

theorem dropWhile_append_all {α : Type} (p : α → Bool) (xs ys : List α)
    (h : ∀ x ∈ xs, p x = true) :
    List.dropWhile p (xs ++ ys) = List.dropWhile p ys := by
  induction xs with
  | nil => simp
  | cons a t ih =>
    have ha := h a (List.mem_cons_self a t)
    simp only [List.cons_append, List.dropWhile_cons, ha, if_true]
    exact ih (fun x hx => h x (List.mem_cons_of_mem a hx))

theorem takeWhile_append_not_all {α : Type} (p : α → Bool) (xs ys : List α)
    (h : ¬ ∀ x ∈ xs, p x = true) :
    List.takeWhile p (xs ++ ys) = List.takeWhile p xs := by
  induction xs with
  | nil => exact absurd (by simp) h
  | cons a t ih =>
    by_cases ha : p a = true
    · have ht : ¬ ∀ x ∈ t, p x = true := by
        intro hall
        exact h (fun x hx => by
          rcases List.mem_cons.mp hx with hx1 | hx2
          · rw [hx1]; exact ha
          · exact hall x hx2)
      simp only [List.cons_append, List.takeWhile_cons, ha, if_true]
      rw [ih ht]
    · simp only [List.cons_append, List.takeWhile_cons]
      rw [Bool.not_eq_true] at ha
      simp [ha]

theorem dropWhile_append_not_all {α : Type} (p : α → Bool) (xs ys : List α)
    (h : ¬ ∀ x ∈ xs, p x = true) :
    List.dropWhile p (xs ++ ys) = List.dropWhile p xs ++ ys := by
  induction xs with
  | nil => exact absurd (by simp) h
  | cons a t ih =>
    by_cases ha : p a = true
    · have ht : ¬ ∀ x ∈ t, p x = true := by
        intro hall
        exact h (fun x hx => by
          rcases List.mem_cons.mp hx with hx1 | hx2
          · rw [hx1]; exact ha
          · exact hall x hx2)
      simp only [List.cons_append, List.dropWhile_cons, ha, if_true]
      exact ih ht
    · simp only [List.cons_append, List.dropWhile_cons]
      rw [Bool.not_eq_true] at ha
      simp [ha]

theorem dropWhile_all {α : Type} (p : α → Bool) (xs : List α)
    (h : ∀ x ∈ xs, p x = true) :
    xs.dropWhile p = [] := by
  induction xs with
  | nil => rfl
  | cons a t ih =>
    have ha := h a (List.mem_cons_self a t)
    simp only [List.dropWhile_cons, ha, if_true]
    exact ih (fun x hx => h x (List.mem_cons_of_mem a hx))

theorem collapseProgress_all_nonprog (xs : List String)
    (h : ∀ l ∈ xs, isProgressLine l = false) :
    collapseProgress xs = xs := by
  induction xs with
  | nil => rfl
  | cons l ls ih =>
    rw [collapseProgress_cons_nonprog l ls (h l (List.mem_cons_self l ls)),
        ih (fun x hx => h x (List.mem_cons_of_mem l hx))]

theorem isProgressLine_blank : isProgressLine "" = false := by decide

theorem collapseProgress_append (ys : List String)
    (hys : ys = [] ∨ ∃ y ys2, ys = y :: ys2 ∧ isProgressLine y = false) :
    ∀ n : Nat, ∀ xs : List String, xs.length ≤ n →
      collapseProgress (xs ++ ys) = collapseProgress xs ++ collapseProgress ys := by
  have hyt : List.takeWhile (fun s => isProgressLine s) ys = [] := by
    rcases hys with rfl | ⟨y, ys2, rfl, hy⟩
    · rfl
    · simp [List.takeWhile_cons, hy]
  have hyd : List.dropWhile (fun s => isProgressLine s) ys = ys := by
    rcases hys with rfl | ⟨y, ys2, rfl, hy⟩
    · rfl
    · simp [List.dropWhile_cons, hy]
  intro n
  induction n with
  | zero =>
    intro xs hlen
    have hx : xs = [] := List.length_eq_zero.mp (by omega)
    subst hx
    simp [collapseProgress, collapseProgressGo_nil]
  | succ n ih =>
    intro xs hlen
    cases xs with
    | nil => simp [collapseProgress, collapseProgressGo_nil]
    | cons l ls =>
      have hlen2 : ls.length ≤ n := by
        simp only [List.length_cons] at hlen
        omega
      cases hl : isProgressLine l with
      | false =>
        rw [List.cons_append, collapseProgress_cons_nonprog l (ls ++ ys) hl,
            collapseProgress_cons_nonprog l ls hl, ih ls hlen2]
        simp
      | true =>
        rw [List.cons_append, collapseProgress_cons_prog l (ls ++ ys) hl,
            collapseProgress_cons_prog l ls hl]
        by_cases hall : ∀ x ∈ ls, isProgressLine x = true
        · rw [takeWhile_append_all _ ls ys hall, dropWhile_append_all _ ls ys hall,
              hyt, hyd, List.takeWhile_eq_self_iff.mpr hall, dropWhile_all _ ls hall]
          simp [collapseProgress, collapseProgressGo_nil, List.append_assoc]
        · rw [takeWhile_append_not_all _ ls ys hall, dropWhile_append_not_all _ ls ys hall,
              ih (List.dropWhile (fun s => isProgressLine s) ls)
                (le_trans (dropWhile_length_le _ ls) hlen2)]
          simp [List.append_assoc]

theorem collapseProgress_append_main (xs ys : List String)
    (hys : ys = [] ∨ ∃ y ys2, ys = y :: ys2 ∧ isProgressLine y = false) :
    collapseProgress (xs ++ ys) = collapseProgress xs ++ collapseProgress ys :=
  collapseProgress_append ys hys xs.length xs (le_refl _)

theorem truncateBlocks_all_nonblank_big (run : List String)
    (hnb : ∀ l ∈ run, l ≠ "") (hlen : 80 < run.length) :
    truncateBlocks run =
      run.take 20 ++ [truncMarker (run.length - 40)] ++ run.drop (run.length - 20) := by
  cases run with
  | nil => simp at hlen
  | cons l ls =>
    have hl : ¬ l = "" := hnb l (List.mem_cons_self l ls)
    have hall : ∀ x ∈ ls, (x != "") = true :=
      fun x hx => bne_iff_ne.mpr (hnb x (List.mem_cons_of_mem l hx))
    rw [truncateBlocks_cons_nonblank l ls hl, List.takeWhile_eq_self_iff.mpr hall,
        dropWhile_all _ ls hall]
    have htn : truncateBlocks ([] : List String) = [] := rfl
    rw [htn, List.append_nil, if_pos hlen]

theorem truncateBlocks_run_blank (run : List String)
    (hnb : ∀ l ∈ run, l ≠ "") (hlen : 80 < run.length) :
    truncateBlocks (run ++ [""]) =
      (run.take 20 ++ [truncMarker (run.length - 40)] ++ run.drop (run.length - 20)) ++ [""] := by
  cases run with
  | nil => simp at hlen
  | cons l ls =>
    have hl : ¬ l = "" := hnb l (List.mem_cons_self l ls)
    have hall : ∀ x ∈ ls, (x != "") = true :=
      fun x hx => bne_iff_ne.mpr (hnb x (List.mem_cons_of_mem l hx))
    rw [List.cons_append, truncateBlocks_cons_nonblank l (ls ++ [""]) hl,
        takeWhile_append_all _ ls [""] hall, dropWhile_append_all _ ls [""] hall]
    have h1 : List.takeWhile (fun s => s != "") ([""] : List String) = [] := rfl
    have h2 : List.dropWhile (fun s => s != "") ([""] : List String) = [""] := rfl
    have h3 : truncateBlocks ([""] : List String) = [""] := rfl
    rw [h1, h2, h3, List.append_nil, if_pos hlen]

theorem truncateBlocks_split : ∀ n : Nat, ∀ xs : List String, xs.length ≤ n → ∀ ys : List String,
    truncateBlocks (xs ++ "" :: ys) = truncateBlocks (xs ++ [""]) ++ truncateBlocks ys := by
  intro n
  induction n with
  | zero =>
    intro xs hlen ys
    have hx : xs = [] := List.length_eq_zero.mp (by omega)
    subst hx
    rw [List.nil_append, List.nil_append, truncateBlocks_cons_blank]
    have h3 : truncateBlocks ([""] : List String) = [""] := rfl
    rw [h3]
    rfl
  | succ n ih =>
    intro xs hlen ys
    cases xs with
    | nil =>
      rw [List.nil_append, List.nil_append, truncateBlocks_cons_blank]
      have h3 : truncateBlocks ([""] : List String) = [""] := rfl
      rw [h3]
      rfl
    | cons l ls =>
      have hlen2 : ls.length ≤ n := by
        simp only [List.length_cons] at hlen
        omega
      by_cases hl : l = ""
      · subst hl
        rw [List.cons_append, List.cons_append, truncateBlocks_cons_blank,
            truncateBlocks_cons_blank, ih ls hlen2 ys]
        simp
      · rw [List.cons_append, List.cons_append,
            truncateBlocks_cons_nonblank l (ls ++ "" :: ys) hl,
            truncateBlocks_cons_nonblank l (ls ++ [""]) hl]
        by_cases hall : ∀ x ∈ ls, (x != "") = true
        · rw [takeWhile_append_all _ ls ("" :: ys) hall, takeWhile_append_all _ ls [""] hall,
              dropWhile_append_all _ ls ("" :: ys) hall, dropWhile_append_all _ ls [""] hall]
          have h1 : List.takeWhile (fun s => s != "") ("" :: ys) = [] := rfl
          have h2 : List.takeWhile (fun s => s != "") ([""] : List String) = [] := rfl
          have h3 : List.dropWhile (fun s => s != "") ("" :: ys) = "" :: ys := rfl
          have h4 : List.dropWhile (fun s => s != "") ([""] : List String) = [""] := rfl
          have h5 : truncateBlocks ([""] : List String) = [""] := rfl
          rw [h1, h2, h3, h4, h5, truncateBlocks_cons_blank]
          simp [List.append_assoc]
        · rw [takeWhile_append_not_all _ ls ("" :: ys) hall,
              takeWhile_append_not_all _ ls [""] hall,
              dropWhile_append_not_all _ ls ("" :: ys) hall,
              dropWhile_append_not_all _ ls [""] hall,
              ih (List.dropWhile (fun s => s != "") ls)
                (le_trans (dropWhile_length_le _ ls) hlen2) ys]
          simp [List.append_assoc]

/-- The `prev_blank` flag value after processing `xs` starting from `p`. -/
def blankFlagAfter (p : Bool) (xs : List String) : Bool :=
  xs.foldl (fun _ l => l == "") p

theorem blankFlagAfter_cons (p : Bool) (l : String) (ls : List String) :
    blankFlagAfter p (l :: ls) = blankFlagAfter (l == "") ls := rfl

theorem dedupBlanks_append (xs : List String) : ∀ p : Bool, ∀ ys : List String,
    dedupBlanks p (xs ++ ys) = dedupBlanks p xs ++ dedupBlanks (blankFlagAfter p xs) ys := by
  induction xs with
  | nil =>
    intro p ys
    simp [dedupBlanks, blankFlagAfter]
  | cons l ls ih =>
    intro p ys
    by_cases hl : l = ""
    · subst hl
      cases p <;> simp [dedupBlanks, blankFlagAfter_cons, ih]
    · have hbe : (l == "") = false := beq_eq_false_iff_ne.mpr hl
      simp [dedupBlanks, hl, blankFlagAfter_cons, hbe, ih]

theorem dedupBlanks_all_nonblank (xs : List String)
    (h : ∀ l ∈ xs, l ≠ "") : ∀ p : Bool, dedupBlanks p xs = xs := by
  induction xs with
  | nil => intro p; rfl
  | cons l ls ih =>
    intro p
    have hl : ¬ l = "" := h l (List.mem_cons_self l ls)
    simp [dedupBlanks, hl, ih (fun x hx => h x (List.mem_cons_of_mem l hx))]

theorem blankFlagAfter_nonblank (xs : List String)
    (h : ∀ l ∈ xs, l ≠ "") (hne : xs ≠ []) : ∀ p : Bool, blankFlagAfter p xs = false := by
  induction xs with
  | nil => exact absurd rfl hne
  | cons l ls ih =>
    intro p
    rw [blankFlagAfter_cons]
    by_cases hls : ls = []
    · subst hls
      have hl : ¬ l = "" := h l (List.mem_cons_self l [])
      simp [blankFlagAfter, hl]
    · exact ih (fun x hx => h x (List.mem_cons_of_mem l hx)) hls (l == "")

theorem truncMarker_ne_empty (k : Nat) : truncMarker k ≠ "" := by
  intro h
  have hd : (truncMarker k).data = [] := by
    rw [h]
  unfold truncMarker at hd
  rw [String.data_append, String.data_append] at hd
  rcases List.append_eq_nil.mp hd with ⟨h1, _⟩
  rcases List.append_eq_nil.mp h1 with ⟨h2, _⟩
  exact (by decide : ("... (".data) ≠ ([] : List Char)) h2

theorem truncRun_nonblank (run : List String) (hnb : ∀ l ∈ run, l ≠ "") :
    ∀ l ∈ run.take 20 ++ [truncMarker (run.length - 40)] ++ run.drop (run.length - 20),
      l ≠ "" := by
  intro l hl
  rcases List.mem_append.mp hl with h1 | h2
  · rcases List.mem_append.mp h1 with h3 | h4
    · exact hnb l (List.take_subset _ _ h3)
    · rw [List.mem_singleton] at h4
      rw [h4]
      exact truncMarker_ne_empty _
  · exact hnb l (List.drop_subset _ _ h2)

theorem truncRun_ne_nil (run : List String) :
    run.take 20 ++ [truncMarker (run.length - 40)] ++ run.drop (run.length - 20) ≠ [] := by
  intro h
  rcases List.append_eq_nil.mp h with ⟨h1, _⟩
  rcases List.append_eq_nil.mp h1 with ⟨_, h2⟩
  simp at h2

theorem append_singleton_cons {α : Type} (X Y : List α) (x : α) :
    (X ++ [x]) ++ Y = X ++ x :: Y := by
  rw [List.append_assoc]
  rfl

theorem collapseProgress_blank_singleton :
    collapseProgress ([""] : List String) = [""] := by
  rw [collapseProgress_cons_nonprog "" [] isProgressLine_blank]
  rfl

/-- C6: for every list of context lines containing a contiguous maximal
run of more than 80 non-blank lines (maximality expressed by the
surrounding context ending/starting with a blank line, or the run sitting
at an edge of the list), none of which matches the progress-indicator
heuristics, the compression `_compress` applied by `get_context` replaces
that run with its first 20 lines, one marker line reporting K lines
truncated where K = run length − 40 (the number of removed lines), and
its last 20 lines; the surrounding output P and S is independently
compressed context, empty when the run sits at the corresponding edge —
in particular 100 such lines alone yield exactly the first 20 lines, a
marker reporting 60 lines truncated, and the last 20 lines. -/
theorem large_block_truncation (a run b : List String)
    (hlen : 80 < run.length)
    (hnb : ∀ l ∈ run, l ≠ "")
    (hnp : ∀ l ∈ run, isProgressLine l = false)
    (ha : a = [] ∨ ∃ a2, a = a2 ++ [""])
    (hb : b = [] ∨ ∃ b2, b = "" :: b2) :
    ∃ P S, compress (a ++ run ++ b) =
        P ++ (run.take 20 ++ [truncMarker (run.length - 40)] ++ run.drop (run.length - 20)) ++ S
      ∧ (a = [] → P = []) ∧ (b = [] → S = []) := by
  obtain ⟨r0, run2, hr⟩ : ∃ r0 run2, run = r0 :: run2 := by
    cases run with
    | nil => simp at hlen
    | cons x xs => exact ⟨x, xs, rfl⟩
  have hr0np : isProgressLine r0 = false :=
    hnp r0 (by rw [hr]; exact List.mem_cons_self r0 run2)
  have hcr : collapseProgress run = run := collapseProgress_all_nonprog run hnp
  have hTRnb := truncRun_nonblank run hnb
  have hTRne := truncRun_ne_nil run
  rcases ha with rfl | ⟨a2, rfl⟩
  · rcases hb with rfl | ⟨b2, rfl⟩
    · -- run alone
      refine ⟨[], [], ?_, fun _ => rfl, fun _ => rfl⟩
      rw [List.nil_append, List.append_nil]
      unfold compress
      rw [hcr, truncateBlocks_all_nonblank_big run hnb hlen,
          dedupBlanks_all_nonblank _ hTRnb false]
      simp
    · -- run at the start, blank-then-context after
      refine ⟨[], "" :: dedupBlanks true (truncateBlocks (collapseProgress b2)), ?_,
        fun _ => rfl, fun hbn => absurd hbn (List.cons_ne_nil _ _)⟩
      rw [List.nil_append]
      unfold compress
      rw [collapseProgress_append_main run ("" :: b2)
            (Or.inr ⟨"", b2, rfl, isProgressLine_blank⟩),
          hcr, collapseProgress_cons_nonprog "" b2 isProgressLine_blank,
          truncateBlocks_split run.length run (le_refl _) (collapseProgress b2),
          truncateBlocks_run_blank run hnb hlen,
          append_singleton_cons,
          dedupBlanks_append _ false _,
          dedupBlanks_all_nonblank _ hTRnb false,
          blankFlagAfter_nonblank _ hTRnb hTRne false]
      have hded : dedupBlanks false ("" :: truncateBlocks (collapseProgress b2)) =
          "" :: dedupBlanks true (truncateBlocks (collapseProgress b2)) := by
        simp [dedupBlanks]
      rw [hded]
      simp
  · rcases hb with rfl | ⟨b2, rfl⟩
    · -- context-then-blank before, run at the end
      refine ⟨dedupBlanks false (truncateBlocks (collapseProgress a2 ++ [""])), [], ?_,
        fun han => absurd han (by simp), fun _ => rfl⟩
      rw [List.append_nil]
      unfold compress
      rw [collapseProgress_append_main (a2 ++ [""]) run (Or.inr ⟨r0, run2, hr, hr0np⟩),
          hcr,
          collapseProgress_append_main a2 [""] (Or.inr ⟨"", [], rfl, isProgressLine_blank⟩),
          collapseProgress_blank_singleton,
          append_singleton_cons,
          truncateBlocks_split (collapseProgress a2).length _ (le_refl _) run,
          truncateBlocks_all_nonblank_big run hnb hlen,
          dedupBlanks_append _ false _,
          dedupBlanks_all_nonblank _ hTRnb _]
      simp
    · -- context on both sides
      refine ⟨dedupBlanks false (truncateBlocks (collapseProgress a2 ++ [""])),
        "" :: dedupBlanks true (truncateBlocks (collapseProgress b2)), ?_,
        fun han => absurd han (by simp), fun hbn => absurd hbn (List.cons_ne_nil _ _)⟩
      rw [List.append_assoc]
      unfold compress
      rw [collapseProgress_append_main (a2 ++ [""]) (run ++ "" :: b2)
            (Or.inr ⟨r0, run2 ++ "" :: b2, by rw [hr]; rfl, hr0np⟩),
          collapseProgress_append_main run ("" :: b2)
            (Or.inr ⟨"", b2, rfl, isProgressLine_blank⟩),
          hcr, collapseProgress_cons_nonprog "" b2 isProgressLine_blank,
          collapseProgress_append_main a2 [""] (Or.inr ⟨"", [], rfl, isProgressLine_blank⟩),
          collapseProgress_blank_singleton,
          append_singleton_cons,
          truncateBlocks_split (collapseProgress a2).length _ (le_refl _)
            (run ++ "" :: collapseProgress b2),
          truncateBlocks_split run.length run (le_refl _) (collapseProgress b2),
          truncateBlocks_run_blank run hnb hlen,
          append_singleton_cons,
          dedupBlanks_append _ false _,
          dedupBlanks_append _ _ _,
          dedupBlanks_all_nonblank _ hTRnb _,
          blankFlagAfter_nonblank _ hTRnb hTRne _]
      have hded : dedupBlanks false ("" :: truncateBlocks (collapseProgress b2)) =
          "" :: dedupBlanks true (truncateBlocks (collapseProgress b2)) := by
        simp [dedupBlanks]
      rw [hded]
      simp [List.append_assoc]

/-- Witness for C6: the spec's concrete case — 100 identical non-blank,
non-progress lines as the whole context — yields the first 20 lines, a
"(60 lines truncated)" marker, and the last 20 lines, with nothing else
around them. -/
theorem large_block_truncation_witness :
    ∃ P S, compress ([] ++ List.replicate 100 "x" ++ []) =
        P ++ ((List.replicate 100 "x").take 20 ++
              [truncMarker ((List.replicate 100 "x").length - 40)] ++
              (List.replicate 100 "x").drop ((List.replicate 100 "x").length - 20)) ++ S
      ∧ (([] : List String) = [] → P = []) ∧ (([] : List String) = [] → S = []) :=
  large_block_truncation [] (List.replicate 100 "x") [] (by decide) (by decide) (by decide)
    (Or.inl rfl) (Or.inl rfl)

end Llaminal
